import Mathlib

/-!
Verification of the EM9301 chipset adapter (btstack_chipset_em9301.c).

The development shallowly embeds the C source: machine integers become `Nat`
with explicit `% 2^32` / `% 2^16` / `% 256` where the C types wrap, the HCI
command buffer (a raw `uint8_t *` in the source) becomes a total function
`Nat → Nat`, and the process-wide upload counters become an explicit
`Session` record.  Each definition mirrors one function or datum of the
source file.
-/

/-- A byte buffer of unbounded extent, modelling the raw `uint8_t *`
command buffer.  Every store truncates to a byte. -/
def Buf : Type := Nat → Nat

/-- Write one byte (`buf[pos] = v`, with the C `uint8_t` truncation). -/
def bufStore (b : Buf) (pos v : Nat) : Buf :=
  fun j => if j = pos then v % 256 else b j

/-- Modelled from the spec: `little_endian_store_16` of btstack_util
(declared in the source, body not under src/) — "All multi-byte integers
little-endian". Stores the low byte at `pos`, the high byte at `pos+1`. -/
def little_endian_store_16 (b : Buf) (pos v : Nat) : Buf :=
  bufStore (bufStore b pos v) (pos + 1) (v / 256)

/-- Modelled from the spec: `little_endian_store_32` of btstack_util —
four bytes, least significant first. -/
def little_endian_store_32 (b : Buf) (pos v : Nat) : Buf :=
  bufStore (bufStore (bufStore (bufStore b pos v) (pos + 1) (v / 256))
    (pos + 2) (v / 65536)) (pos + 3) (v / 16777216)

/-- Read byte `i` of the patch blob (`container_blob_data[i]`); the blob is
a `uint8_t` array, so values are bytes. -/
def blobByte (blob : List Nat) (i : Nat) : Nat := blob.getD i 0 % 256

/-- Modelled from the spec: `little_endian_read_32` of btstack_util —
reads four bytes, least significant first. -/
def little_endian_read_32 (blob : List Nat) (pos : Nat) : Nat :=
  blobByte blob pos + 256 * blobByte blob (pos + 1) +
    65536 * blobByte blob (pos + 2) + 16777216 * blobByte blob (pos + 3)

/-- `memcpy(&buf[pos], src, src.length)`. -/
def memcpyBuf (b : Buf) (pos : Nat) (src : List Nat) : Buf :=
  fun j => if pos ≤ j ∧ j < pos + src.length then src.getD (j - pos) 0 % 256 else b j

/-- The `n` blob bytes starting at offset `off` (the chunk handed to
`btstack_crc32` and `memcpy`). -/
def blobSlice (blob : List Nat) (off n : Nat) : List Nat :=
  (List.range n).map (fun i => blobByte blob (off + i))

/-- `uint32_t` subtraction `a - b` (wraps modulo `2^32`); used for
`container_end - container_blob_offset`. -/
def sub32 (a b : Nat) : Nat := (a + 2 ^ 32 - b) % 2 ^ 32

/-- The 16-entry nibble lookup table `crc32_table` of the source. -/
def crc32_table : List Nat :=
  [0x00000000, 0x1db71064, 0x3b6e20c8, 0x26d930ac,
   0x76dc4190, 0x6b6b51f4, 0x4db26158, 0x5005713c,
   0xedb88320, 0xf00f9344, 0xd6d6a3e8, 0xcb61b38c,
   0x9b64c2b0, 0x86d3d2d4, 0xa00ae278, 0xbdbdf21c]

/-- One loop iteration of `btstack_crc32`: two 4-bit table lookups, low
nibble of the byte first, then the high nibble. -/
def crc32_update (crc b : Nat) : Nat :=
  let c1 := (crc / 16) ^^^ crc32_table.getD ((crc % 16) ^^^ (b % 256 % 16)) 0
  (c1 / 16) ^^^ crc32_table.getD ((c1 % 16) ^^^ (b % 256 / 16)) 0

/-- `btstack_crc32`: register starts at all-ones, each byte goes through
two nibble lookups, and the result is complemented (`~crc32`,
i.e. XOR with `0xffffffff` on a 32-bit register). -/
def btstack_crc32 (buf : List Nat) : Nat :=
  0xffffffff ^^^ buf.foldl crc32_update 0xffffffff

/-- The fixed ordered baudrate table `baudrates[]` of the source. -/
def baudrates : List Nat :=
  [0, 0, 0, 9600, 14400, 19200, 28800, 38400, 57600, 76800,
   115200, 230400, 460800, 921600, 1843200]

/-- The `found` value computed by the lookup loop in
`chipset_set_baudrate_command`: `found` starts at 0 and becomes the first
index whose entry equals `baudrate` (the loop breaks there). -/
def baudrate_found (baudrate : Nat) : Nat :=
  match (List.range baudrates.length).find? (fun i => baudrates.getD i 0 == baudrate) with
  | some i => i
  | none => 0

/-- `chipset_set_baudrate_command`: if `!found` the function returns
without touching the buffer; otherwise it writes the vendor opcode
`OPCODE(OGF_VENDOR, 0x07)` (OGF_VENDOR = 0x3f from hci.h, giving 0xFC07),
length byte 1, and the table index as the single payload byte. -/
def chipset_set_baudrate_command (baudrate : Nat) (buf : Buf) : Buf :=
  if baudrate_found baudrate = 0 then buf
  else
    bufStore (bufStore (little_endian_store_16 buf 0 0xFC07) 2 1) 3
      (baudrate_found baudrate)

/-- The two-state upload phase `upload_state` of the source. -/
inductive UploadState where
  | idle
  | active
deriving DecidableEq, Repr

/-- The process-wide mutable upload counters of the source, gathered into
one record: `container_blob_offset`, `container_end`,
`patch_sequence_number`, `em_cpu_reset_sent`, `upload_state`. -/
structure Session where
  container_blob_offset : Nat
  container_end : Nat
  patch_sequence_number : Nat
  em_cpu_reset_sent : Bool
  upload_state : UploadState
deriving DecidableEq, Repr

/-- `chipset_init`: resets the cursor, the reset flag and the phase (the
other two counters are left alone, exactly as in the source). -/
def chipset_init (s : Session) : Session :=
  { s with container_blob_offset := 0, em_cpu_reset_sent := false,
           upload_state := .idle }

/-- The two result values `chipset_next_command` actually returns:
`BTSTACK_CHIPSET_VALID_COMMAND` and `BTSTACK_CHIPSET_DONE`. -/
inductive ChipsetResult where
  | validCommand
  | done
deriving DecidableEq, Repr

/-- Everything one call of `chipset_next_command` leaves behind: the new
counter values, the command buffer, and the returned result code. -/
structure StepResult where
  session : Session
  buf : Buf
  result : ChipsetResult

def HCI_OPCODE_EM_WRITE_PATCH_START : Nat := 0xFC27
def HCI_OPCODE_EM_WRITE_PATCH_CONTINUE : Nat := 0xFC28
def HCI_OPCODE_EM_CPU_RESET : Nat := 0xFC32

/-- `chipset_next_command`, translated line by line.  `blob` stands for
`container_blob_data` with `container_blob_size = blob.length`; all
`uint32_t`/`uint16_t` arithmetic wraps explicitly. -/
def chipset_next_command (blob : List Nat) (s : Session) (buf : Buf) : StepResult :=
  if blob.length ≤ s.container_blob_offset then
    if s.em_cpu_reset_sent = false then
      { session := { s with em_cpu_reset_sent := true },
        buf := bufStore (little_endian_store_16 buf 0 HCI_OPCODE_EM_CPU_RESET) 2 0,
        result := .validCommand }
    else
      { session := s, buf := buf, result := .done }
  else
    match s.upload_state with
    | .idle =>
      if little_endian_read_32 blob s.container_blob_offset ≠ 0x656d3933 then
        { session := s, buf := buf, result := .done }
      else
        let cEnd := (s.container_blob_offset +
          little_endian_read_32 blob (s.container_blob_offset + 4)) % 2 ^ 32
        let n := min 59 (sub32 cEnd s.container_blob_offset)
        let crc := btstack_crc32 (blobSlice blob s.container_blob_offset n)
        let newOff := (s.container_blob_offset + n) % 2 ^ 32
        { session := { s with
            container_blob_offset := newOff,
            container_end := cEnd,
            patch_sequence_number := 1,
            upload_state := if newOff < cEnd then .active else .idle },
          buf := memcpyBuf
            (little_endian_store_32
              (bufStore
                (bufStore (little_endian_store_16 buf 0 HCI_OPCODE_EM_WRITE_PATCH_START)
                  2 (5 + n))
                3 0)
              4 crc)
            8 (blobSlice blob s.container_blob_offset n),
          result := .validCommand }
    | .active =>
      let n := min 58 (sub32 s.container_end s.container_blob_offset)
      let crc := btstack_crc32 (blobSlice blob s.container_blob_offset n)
      let newOff := (s.container_blob_offset + n) % 2 ^ 32
      { session := { s with
          container_blob_offset := newOff,
          patch_sequence_number := (s.patch_sequence_number + 1) % 2 ^ 16,
          upload_state := if s.container_end ≤ newOff then .idle else .active },
        buf := memcpyBuf
          (little_endian_store_32
            (little_endian_store_16
              (bufStore (little_endian_store_16 buf 0 HCI_OPCODE_EM_WRITE_PATCH_CONTINUE)
                2 (6 + n))
              3 s.patch_sequence_number)
            5 crc)
          9 (blobSlice blob s.container_blob_offset n),
        result := .validCommand }

/-- Iterated calls: session and buffer after `k` calls of
`chipset_next_command`. -/
def runFrom (blob : List Nat) (s : Session) (buf : Buf) : Nat → Session × Buf
  | 0 => (s, buf)
  | k + 1 =>
    let r := chipset_next_command blob s buf
    runFrom blob r.session r.buf k

/-- The `(k+1)`-st call in a run starting from `(s, buf)`. -/
def callAt (blob : List Nat) (s : Session) (buf : Buf) (k : Nat) : StepResult :=
  chipset_next_command blob (runFrom blob s buf k).1 (runFrom blob s buf k).2

/-- Externally visible summary of one call: the result code, the opcode
bytes and the length byte of the command buffer after the call. -/
structure Obs where
  result : ChipsetResult
  opcode : Nat
  lenByte : Nat
deriving DecidableEq, Repr

/-- Read an `Obs` off a call's outcome. -/
def obsOf (r : StepResult) : Obs :=
  { result := r.result, opcode := r.buf 0 + 256 * r.buf 1, lenByte := r.buf 2 }

/-- The 2-byte little-endian field at buffer offset 3 (the sequence-number
field of a Continue frame). -/
def seqFieldOf (r : StepResult) : Nat := r.buf 3 + 256 * r.buf 4

/-- Observations of the first `k` calls of a run. -/
def obsList (blob : List Nat) (s : Session) (buf : Buf) : Nat → List Obs
  | 0 => []
  | k + 1 =>
    obsOf (chipset_next_command blob s buf) ::
      obsList blob (chipset_next_command blob s buf).session
        (chipset_next_command blob s buf).buf k

/-- Well-formed blob from offset `off`: a sequence of containers, each
starting with the magic tag, with a total-size field of at least the
8-byte header, packed back to back and ending exactly at the blob end. -/
def wfFrom (blob : List Nat) (off : Nat) : Bool :=
  if blob.length ≤ off then off == blob.length
  else
    let T := little_endian_read_32 blob (off + 4)
    if h8 : 8 ≤ T then
      if hle : off + T ≤ blob.length then
        (little_endian_read_32 blob off == 0x656d3933) && wfFrom blob (off + T)
      else false
    else false
termination_by blob.length - off
decreasing_by
  simp_wf
  omega

/-- Start offsets of the containers of a well-formed blob. -/
def containerStarts (blob : List Nat) (off : Nat) : List Nat :=
  if blob.length ≤ off then []
  else
    let T := little_endian_read_32 blob (off + 4)
    if h8 : 8 ≤ T then
      if hle : off + T ≤ blob.length then
        off :: containerStarts blob (off + T)
      else []
    else []
termination_by blob.length - off
decreasing_by
  simp_wf
  omega

/-- Chunk sizes the Continue frames cut a remainder of `rem` bytes into:
pieces of 58, with a smaller final piece. -/
def chunksFrom (rem : Nat) : List Nat :=
  if h : rem = 0 then []
  else min 58 rem :: chunksFrom (rem - min 58 rem)
termination_by rem
decreasing_by
  simp_wf
  omega

/-! ### The standard reflected CRC-32 and its nibble-table refinement -/

/-- Modelled from the spec: one bit step of the standard reflected CRC-32
with polynomial 0xEDB88320 — shift right by one, XOR the polynomial in
when the bit shifted out was set. -/
def crc32_spec_step (c : Nat) : Nat :=
  if c % 2 = 1 then c / 2 ^^^ 0xEDB88320 else c / 2

/-- Modelled from the spec: the standard byte update — XOR the byte into
the low bits of the register, then run eight bit steps. -/
def crc32_spec_update (c b : Nat) : Nat :=
  crc32_spec_step^[8] (c ^^^ b % 256)

/-- Modelled from the spec: the standard reflected CRC-32 — register
initialized to all-ones, one byte update per input byte, final
complement. -/
def crc32_spec (buf : List Nat) : Nat :=
  0xffffffff ^^^ buf.foldl crc32_spec_update 0xffffffff

/-- The state invariant that a run over a well-formed blob maintains:
the cursor stays inside the blob, in `idle` phase the cursor is a
container boundary (or the blob end), and in `active` phase the cursor is
strictly before `container_end`, which is itself a boundary. -/
def SessionInv (blob : List Nat) (s : Session) : Prop :=
  s.container_blob_offset ≤ blob.length ∧
  (s.upload_state = .idle → wfFrom blob s.container_blob_offset = true) ∧
  (s.upload_state = .active →
    s.container_blob_offset < s.container_end ∧
    s.container_end ≤ blob.length ∧
    wfFrom blob s.container_end = true)


/-! ### Concrete inputs used for witnesses and counterexamples -/

/-- The all-zero buffer. -/
def buf0 : Buf := fun _ => 0

/-- A freshly initialized session (all counters zero, as the C statics
start, then `chipset_init`). -/
def freshS : Session :=
  { container_blob_offset := 0, container_end := 0, patch_sequence_number := 0,
    em_cpu_reset_sent := false, upload_state := .idle }

/-- A session that has consumed a 12-byte blob and already sent the CPU
reset. -/
def doneS : Session :=
  { container_blob_offset := 12, container_end := 12, patch_sequence_number := 1,
    em_cpu_reset_sent := true, upload_state := .idle }

/-- A session mid-container: cursor 8, container end 12, phase `active`. -/
def activeS : Session :=
  { container_blob_offset := 8, container_end := 12, patch_sequence_number := 1,
    em_cpu_reset_sent := false, upload_state := .active }

/-- A blob whose first four bytes are not the magic tag. -/
def blobBadTag : List Nat := [0, 0, 0, 0, 1, 0, 0, 0]

/-- A single-container blob: magic tag, total size 12 (payload 4 bytes). -/
def blobOne : List Nat := [0x33, 0x39, 0x6d, 0x65, 12, 0, 0, 0, 1, 2, 3, 4]

/-- A malformed blob: correct tag but a total-size field (100) far past
the end of the 8-byte blob. -/
def blobOverrun : List Nat := [0x33, 0x39, 0x6d, 0x65, 100, 0, 0, 0]

/-- A well-formed two-container blob: sizes 70 and 12. -/
def blobTwo : List Nat :=
  [0x33, 0x39, 0x6d, 0x65, 70, 0, 0, 0] ++ List.replicate 62 0 ++
    [0x33, 0x39, 0x6d, 0x65, 12, 0, 0, 0, 9, 9, 9, 9]

/-- A single huge container of total size 59 + 58 * 65536 = 3801147 bytes,
needing 65536 Continue frames: enough to wrap the 16-bit sequence
counter. -/
def blobHuge : List Nat :=
  [0x33, 0x39, 0x6d, 0x65, 0x3B, 0x00, 0x3A, 0x00] ++ List.replicate (3801147 - 8) 0

/-! ### Basic facts about the byte-level primitives -/

theorem blobByte_lt (blob : List Nat) (i : Nat) : blobByte blob i < 256 :=
  Nat.mod_lt _ (by omega)

theorem blobSlice_length (blob : List Nat) (off n : Nat) :
    (blobSlice blob off n).length = n := by
  simp [blobSlice]

theorem blobSlice_getD (blob : List Nat) (off n i : Nat) (h : i < n) :
    (blobSlice blob off n).getD i 0 = blobByte blob (off + i) := by
  simp [blobSlice, List.getD_eq_getElem?_getD, List.getElem?_map,
    List.getElem?_range h]

theorem chunksFrom_sum (rem : Nat) : (chunksFrom rem).sum = rem := by
  induction rem using Nat.strong_induction_on with
  | _ rem ih =>
    rw [chunksFrom]
    by_cases h : rem = 0
    · simp [h]
    · have h1 : 1 ≤ min 58 rem := by omega
      have := ih (rem - min 58 rem) (by omega)
      simp only [dif_neg h, List.sum_cons, this]
      omega

theorem chunksFrom_length (rem : Nat) : (chunksFrom rem).length = (rem + 57) / 58 := by
  induction rem using Nat.strong_induction_on with
  | _ rem ih =>
    rw [chunksFrom]
    by_cases h : rem = 0
    · simp [h]
    · by_cases h58 : rem ≤ 58
      · have hm : min 58 rem = rem := by omega
        rw [dif_neg h]
        rw [hm, Nat.sub_self, chunksFrom]
        simp
        omega
      · have hm : min 58 rem = 58 := by omega
        rw [dif_neg h]
        have := ih (rem - 58) (by omega)
        simp [hm, this]
        omega

theorem chunksFrom_getD_le (rem i : Nat) : (chunksFrom rem).getD i 0 ≤ 58 := by
  induction rem using Nat.strong_induction_on generalizing i with
  | _ rem ih =>
    rw [chunksFrom]
    by_cases h : rem = 0
    · simp [h]
    · rw [dif_neg h]
      cases i with
      | zero =>
        simp only [List.getD_cons_zero]
        omega
      | succ j => simpa using ih (rem - min 58 rem) (by omega) j

/-! ### Run composition -/

theorem runFrom_succ (blob : List Nat) (s : Session) (buf : Buf) (k : Nat) :
    runFrom blob s buf (k + 1) =
      runFrom blob (chipset_next_command blob s buf).session
        (chipset_next_command blob s buf).buf k := rfl

theorem runFrom_add (blob : List Nat) (s : Session) (buf : Buf) (a b : Nat) :
    runFrom blob s buf (a + b) =
      runFrom blob (runFrom blob s buf a).1 (runFrom blob s buf a).2 b := by
  induction a generalizing s buf with
  | zero => simp [runFrom]
  | succ a ih =>
    rw [Nat.succ_add, runFrom_succ, ih, runFrom_succ]

theorem callAt_succ (blob : List Nat) (s : Session) (buf : Buf) (k : Nat) :
    callAt blob s buf (k + 1) =
      callAt blob (chipset_next_command blob s buf).session
        (chipset_next_command blob s buf).buf k := by
  simp [callAt, runFrom_succ]

theorem callAt_add (blob : List Nat) (s : Session) (buf : Buf) (a k : Nat) :
    callAt blob s buf (a + k) =
      callAt blob (runFrom blob s buf a).1 (runFrom blob s buf a).2 k := by
  simp [callAt, runFrom_add]

theorem callAt_zero (blob : List Nat) (s : Session) (buf : Buf) :
    callAt blob s buf 0 = chipset_next_command blob s buf := rfl

theorem callAt_eq (blob : List Nat) (s : Session) (buf : Buf) (k : Nat) :
    callAt blob s buf k =
      chipset_next_command blob (runFrom blob s buf k).1 (runFrom blob s buf k).2 := rfl

theorem obsList_eq_map (blob : List Nat) (s : Session) (buf : Buf) (k : Nat) :
    obsList blob s buf k = (List.range k).map (fun i => obsOf (callAt blob s buf i)) := by
  induction k generalizing s buf with
  | zero => simp [obsList]
  | succ k ih =>
    rw [obsList, ih, List.range_succ_eq_map]
    simp only [List.map_cons, List.map_map, callAt_zero, callAt_succ]
    rfl

/-! ### Characterization of the four branches of `chipset_next_command` -/

theorem step_done (blob : List Nat) (s : Session) (buf : Buf)
    (hoff : blob.length ≤ s.container_blob_offset)
    (hr : s.em_cpu_reset_sent = true) :
    chipset_next_command blob s buf = ⟨s, buf, .done⟩ := by
  unfold chipset_next_command
  rw [if_pos hoff, hr]
  simp

theorem step_reset (blob : List Nat) (s : Session) (buf : Buf)
    (hoff : blob.length ≤ s.container_blob_offset)
    (hr : s.em_cpu_reset_sent = false) :
    chipset_next_command blob s buf =
      ⟨{ s with em_cpu_reset_sent := true },
        bufStore (little_endian_store_16 buf 0 HCI_OPCODE_EM_CPU_RESET) 2 0,
        .validCommand⟩ := by
  unfold chipset_next_command
  rw [if_pos hoff, hr]
  simp

theorem step_badtag (blob : List Nat) (s : Session) (buf : Buf)
    (hoff : s.container_blob_offset < blob.length)
    (hst : s.upload_state = .idle)
    (htag : little_endian_read_32 blob s.container_blob_offset ≠ 0x656d3933) :
    chipset_next_command blob s buf = ⟨s, buf, .done⟩ := by
  unfold chipset_next_command
  rw [if_neg (by omega), hst]
  simp only []
  rw [if_pos htag]

/-- After a call that leaves the session unchanged the whole run is frozen. -/
theorem run_fixpoint (blob : List Nat) (s : Session) (buf : Buf)
    (hfix : chipset_next_command blob s buf = ⟨s, buf, .done⟩) :
    ∀ j, runFrom blob s buf j = (s, buf) ∧ (callAt blob s buf j).result = .done := by
  intro j
  have hrun : ∀ m, runFrom blob s buf m = (s, buf) := by
    intro m
    induction m with
    | zero => rfl
    | succ m ihm => rw [runFrom_succ, hfix]; exact ihm
  refine ⟨hrun j, ?_⟩
  simp [callAt, hrun j, hfix]

theorem sub32_eq (a b : Nat) (hba : b ≤ a) (ha : a < 2 ^ 32) :
    sub32 a b = a - b := by
  unfold sub32
  omega

theorem crc32_table_getD_lt (i : Nat) : crc32_table.getD i 0 < 2 ^ 32 := by
  rcases Nat.lt_or_ge i 16 with h | h
  · interval_cases i <;> decide
  · rw [List.getD_eq_default]
    · decide
    · simp [crc32_table]
      omega

theorem crc32_update_lt (crc b : Nat) (h : crc < 2 ^ 32) :
    crc32_update crc b < 2 ^ 32 := by
  unfold crc32_update
  refine Nat.xor_lt_two_pow (Nat.lt_of_le_of_lt (Nat.div_le_self _ _) ?_)
    (crc32_table_getD_lt _)
  exact Nat.xor_lt_two_pow (Nat.lt_of_le_of_lt (Nat.div_le_self _ _) h)
    (crc32_table_getD_lt _)

theorem crc32_foldl_lt (l : List Nat) (c : Nat) (h : c < 2 ^ 32) :
    l.foldl crc32_update c < 2 ^ 32 := by
  induction l generalizing c with
  | nil => exact h
  | cons x xs ih => exact ih _ (crc32_update_lt _ _ h)

theorem btstack_crc32_lt (l : List Nat) : btstack_crc32 l < 2 ^ 32 :=
  Nat.xor_lt_two_pow (by decide) (crc32_foldl_lt l _ (by decide))


/-- The Start branch in full detail, from any state with phase `idle`, the
cursor inside the blob, a matching magic tag and no 32-bit overflow of
`container_end`. -/
theorem good_start_step (blob : List Nat) (s : Session) (buf : Buf)
    (hst : s.upload_state = .idle)
    (hoff : s.container_blob_offset < blob.length)
    (htag : little_endian_read_32 blob s.container_blob_offset = 0x656d3933)
    (hwrap : s.container_blob_offset +
      little_endian_read_32 blob (s.container_blob_offset + 4) < 2 ^ 32) :
    let o := s.container_blob_offset
    let T := little_endian_read_32 blob (o + 4)
    let n := min 59 T
    let r := chipset_next_command blob s buf
    r.session = { s with
        container_blob_offset := o + n,
        container_end := o + T,
        patch_sequence_number := 1,
        upload_state := if o + n < o + T then .active else .idle } ∧
    r.result = .validCommand ∧
    obsOf r = ⟨.validCommand, 0xFC27, 5 + n⟩ ∧
    r.buf 3 = 0 ∧
    (∀ i, i < n → r.buf (8 + i) = blobByte blob (o + i)) ∧
    r.buf 4 + 256 * r.buf 5 + 65536 * r.buf 6 + 16777216 * r.buf 7 =
      btstack_crc32 (blobSlice blob o n) := by
  intro o T n r
  have hTn : n ≤ T := Nat.min_le_right 59 T
  have hn59 : n ≤ 59 := Nat.min_le_left 59 T
  have hcEnd : (o + T) % 2 ^ 32 = o + T := Nat.mod_eq_of_lt hwrap
  have hsub : sub32 (o + T) o = T := by
    rw [sub32_eq (o + T) o (by omega) hwrap]
    omega
  have hnewOff : (o + n) % 2 ^ 32 = o + n := Nat.mod_eq_of_lt (by omega)
  have hstep : r = ⟨⟨o + n, o + T, 1, s.em_cpu_reset_sent,
        if o + n < o + T then .active else .idle⟩,
      memcpyBuf
        (little_endian_store_32
          (bufStore
            (bufStore (little_endian_store_16 buf 0 HCI_OPCODE_EM_WRITE_PATCH_START)
              2 (5 + n))
            3 0)
          4 (btstack_crc32 (blobSlice blob o n)))
        8 (blobSlice blob o n),
      .validCommand⟩ := by
    show chipset_next_command blob s buf = _
    unfold chipset_next_command
    rw [if_neg (by omega), hst]
    simp only []
    rw [if_neg (by simp [htag])]
    simp only [hcEnd, hsub, hnewOff]
  have hcrc_lt := btstack_crc32_lt (blobSlice blob o n)
  have hn256 : (5 + n) % 256 = 5 + n := by omega
  refine ⟨by rw [hstep], by rw [hstep], ?_, ?_, ?_, ?_⟩
  · rw [hstep]
    simp only [obsOf]
    simp [memcpyBuf, blobSlice_length, little_endian_store_32,
      little_endian_store_16, bufStore, HCI_OPCODE_EM_WRITE_PATCH_START, hn256]
  · rw [hstep]
    simp [memcpyBuf, blobSlice_length, little_endian_store_32,
      little_endian_store_16, bufStore]
  · intro i hi
    rw [hstep]
    simp only [memcpyBuf, blobSlice_length]
    rw [if_pos (by omega)]
    have h8i : 8 + i - 8 = i := by omega
    rw [h8i, blobSlice_getD _ _ _ _ hi]
    simp [blobByte, Nat.mod_mod_of_dvd]
  · rw [hstep]
    simp only [memcpyBuf, blobSlice_length]
    rw [if_neg (by omega), if_neg (by omega), if_neg (by omega), if_neg (by omega)]
    simp only [little_endian_store_32, bufStore]
    norm_num
    omega

/-- The Continue branch in full detail, from any state with phase `active`,
the cursor inside the blob and strictly before a 32-bit `container_end`. -/
theorem good_cont_step (blob : List Nat) (s : Session) (buf : Buf)
    (hst : s.upload_state = .active)
    (hoff : s.container_blob_offset < blob.length)
    (hoe : s.container_blob_offset < s.container_end)
    (hEw : s.container_end < 2 ^ 32) :
    let o := s.container_blob_offset
    let E := s.container_end
    let n := min 58 (E - o)
    let r := chipset_next_command blob s buf
    r.session = { s with
        container_blob_offset := o + n,
        patch_sequence_number := (s.patch_sequence_number + 1) % 2 ^ 16,
        upload_state := if E ≤ o + n then .idle else .active } ∧
    r.result = .validCommand ∧
    obsOf r = ⟨.validCommand, 0xFC28, 6 + n⟩ ∧
    seqFieldOf r = s.patch_sequence_number % 2 ^ 16 ∧
    (∀ i, i < n → r.buf (9 + i) = blobByte blob (o + i)) ∧
    r.buf 5 + 256 * r.buf 6 + 65536 * r.buf 7 + 16777216 * r.buf 8 =
      btstack_crc32 (blobSlice blob o n) := by
  intro o E n r
  have hnE : n ≤ E - o := Nat.min_le_right _ _
  have hn58 : n ≤ 58 := Nat.min_le_left _ _
  have hsub : sub32 E o = E - o := sub32_eq E o (by omega) hEw
  have hnewOff : (o + n) % 2 ^ 32 = o + n := Nat.mod_eq_of_lt (by omega)
  have hstep : r = ⟨⟨o + n, E, (s.patch_sequence_number + 1) % 2 ^ 16,
        s.em_cpu_reset_sent,
        if E ≤ o + n then .idle else .active⟩,
      memcpyBuf
        (little_endian_store_32
          (little_endian_store_16
            (bufStore (little_endian_store_16 buf 0 HCI_OPCODE_EM_WRITE_PATCH_CONTINUE)
              2 (6 + n))
            3 s.patch_sequence_number)
          5 (btstack_crc32 (blobSlice blob o n)))
        9 (blobSlice blob o n),
      .validCommand⟩ := by
    show chipset_next_command blob s buf = _
    unfold chipset_next_command
    rw [if_neg (by omega), hst]
    simp only [hsub, hnewOff]
  have hcrc_lt := btstack_crc32_lt (blobSlice blob o n)
  have hn256 : (6 + n) % 256 = 6 + n := by omega
  refine ⟨by rw [hstep], by rw [hstep], ?_, ?_, ?_, ?_⟩
  · rw [hstep]
    simp only [obsOf]
    simp [memcpyBuf, blobSlice_length, little_endian_store_32,
      little_endian_store_16, bufStore, HCI_OPCODE_EM_WRITE_PATCH_CONTINUE, hn256]
  · rw [hstep]
    simp only [seqFieldOf, memcpyBuf, blobSlice_length]
    rw [if_neg (by omega), if_neg (by omega)]
    simp only [little_endian_store_32, little_endian_store_16, bufStore]
    norm_num
    omega
  · intro i hi
    rw [hstep]
    simp only [memcpyBuf, blobSlice_length]
    rw [if_pos (by omega)]
    have h9i : 9 + i - 9 = i := by omega
    rw [h9i, blobSlice_getD _ _ _ _ hi]
    simp [blobByte, Nat.mod_mod_of_dvd]
  · rw [hstep]
    simp only [memcpyBuf, blobSlice_length]
    rw [if_neg (by omega), if_neg (by omega), if_neg (by omega), if_neg (by omega)]
    simp only [little_endian_store_32, little_endian_store_16, bufStore]
    norm_num
    omega

/-- Running the Continue phase to the end of the current container:
`chunksFrom (container_end - cursor)` lists the chunk sizes of the frames
produced, the sequence fields count up from the current counter, and the
machine lands on `container_end` back in the `idle` phase. -/
theorem active_run_aux (rem : Nat) : ∀ (blob : List Nat) (s : Session) (buf : Buf),
    s.upload_state = .active →
    s.container_blob_offset < s.container_end →
    s.container_end ≤ blob.length →
    blob.length < 2 ^ 32 →
    s.patch_sequence_number < 2 ^ 16 →
    s.container_end - s.container_blob_offset = rem →
    (runFrom blob s buf (chunksFrom rem).length).1 =
      ⟨s.container_end, s.container_end,
        (s.patch_sequence_number + (chunksFrom rem).length) % 2 ^ 16,
        s.em_cpu_reset_sent, .idle⟩ ∧
    ∀ i, i < (chunksFrom rem).length →
      obsOf (callAt blob s buf i) =
        ⟨.validCommand, 0xFC28, 6 + (chunksFrom rem).getD i 0⟩ ∧
      seqFieldOf (callAt blob s buf i) =
        (s.patch_sequence_number + i) % 2 ^ 16 := by
  induction rem using Nat.strong_induction_on with
  | _ rem ih =>
    intro blob s buf hst hoe hEle hL hq hrem
    have hoff : s.container_blob_offset < blob.length := by omega
    have hEw : s.container_end < 2 ^ 32 := by omega
    obtain ⟨hsess, hres, hobs, hseq, hdata, hcrc⟩ :=
      good_cont_step blob s buf hst hoff hoe hEw
    rw [hrem] at hsess hobs
    have hrem1 : 1 ≤ rem := by omega
    by_cases h58 : rem ≤ 58
    · -- final chunk: one Continue frame finishes the container
      have hn : min 58 rem = rem := by omega
      rw [hn] at hsess hobs
      have hcs : chunksFrom rem = [rem] := by
        rw [chunksFrom, dif_neg (by omega), hn, Nat.sub_self, chunksFrom]
        simp
      have hEoff : s.container_blob_offset + rem = s.container_end := by omega
      rw [hcs]
      constructor
      · simp only [List.length_cons, List.length_nil]
        rw [runFrom_succ, runFrom, hsess]
        rw [hEoff, if_pos (le_refl _)]
      · intro i hi
        simp only [List.length_cons, List.length_nil] at hi
        have hi0 : i = 0 := by omega
        subst hi0
        rw [callAt_zero]
        refine ⟨by simpa using hobs, ?_⟩
        rw [hseq]
        simp [Nat.mod_eq_of_lt hq]
    · -- a full 58-byte chunk, then recurse on the rest
      have hn : min 58 rem = 58 := by omega
      rw [hn] at hsess hobs
      have hact : s.container_blob_offset + 58 < s.container_end := by omega
      rw [if_neg (by omega)] at hsess
      have hcs : chunksFrom rem = 58 :: chunksFrom (rem - 58) := by
        rw [chunksFrom, dif_neg (by omega), hn]
      set r := chipset_next_command blob s buf with hr
      have iha := ih (rem - 58) (by omega) blob r.session r.buf
        (by rw [hsess]) (by rw [hsess]; simpa using hact)
        (by rw [hsess]; simpa using hEle) hL
        (by rw [hsess]; exact Nat.mod_lt _ (by omega))
        (by rw [hsess]; simp; omega)
      obtain ⟨ihsess, ihobs⟩ := iha
      rw [hcs]
      constructor
      · simp only [List.length_cons]
        rw [runFrom_succ, ihsess, hsess]
        simp only []
        rw [Nat.mod_add_mod]
        have : s.patch_sequence_number + 1 + (chunksFrom (rem - 58)).length =
            s.patch_sequence_number + ((chunksFrom (rem - 58)).length + 1) := by omega
        rw [this]
      · intro i hi
        cases i with
        | zero =>
          rw [callAt_zero]
          refine ⟨by simpa using hobs, ?_⟩
          rw [hseq]
          simp
        | succ j =>
          simp only [List.length_cons] at hi
          have hj : j < (chunksFrom (rem - 58)).length := by omega
          rw [callAt_succ]
          obtain ⟨ho, hs⟩ := ihobs j hj
          refine ⟨by simpa using ho, ?_⟩
          rw [hs, hsess]
          simp only []
          rw [Nat.mod_add_mod]
          have : s.patch_sequence_number + 1 + j = s.patch_sequence_number + (j + 1) := by
            omega
          rw [this]

/-- One full container, starting `idle` at a well-formed container header:
the Start frame, all Continue frames with sequence fields `1, 2, …`, the
chunk sizes, and the state left `idle` at the container's end. -/
theorem container_run (blob : List Nat) (s : Session) (buf : Buf) (T n : Nat)
    (hst : s.upload_state = .idle)
    (htag : little_endian_read_32 blob s.container_blob_offset = 0x656d3933)
    (hTdef : little_endian_read_32 blob (s.container_blob_offset + 4) = T)
    (hT8 : 8 ≤ T)
    (hTle : s.container_blob_offset + T ≤ blob.length)
    (hL : blob.length < 2 ^ 32)
    (hn : n = min 59 T) :
    (runFrom blob s buf ((chunksFrom (T - n)).length + 1)).1 =
      ⟨s.container_blob_offset + T, s.container_blob_offset + T,
        (1 + (chunksFrom (T - n)).length) % 2 ^ 16, s.em_cpu_reset_sent, .idle⟩ ∧
    obsOf (callAt blob s buf 0) = ⟨.validCommand, 0xFC27, 5 + n⟩ ∧
    (∀ i, i < (chunksFrom (T - n)).length →
      obsOf (callAt blob s buf (1 + i)) =
        ⟨.validCommand, 0xFC28, 6 + (chunksFrom (T - n)).getD i 0⟩ ∧
      seqFieldOf (callAt blob s buf (1 + i)) = (1 + i) % 2 ^ 16) ∧
    n + (chunksFrom (T - n)).sum = T := by
  have hoff : s.container_blob_offset < blob.length := by omega
  have hwrap : s.container_blob_offset +
      little_endian_read_32 blob (s.container_blob_offset + 4) < 2 ^ 32 := by
    rw [hTdef]; omega
  obtain ⟨hsess, hres, hobs, _, _, _⟩ := good_start_step blob s buf hst hoff htag hwrap
  rw [hTdef] at hsess hobs
  rw [← hn] at hsess hobs
  have hTn : n ≤ T := by omega
  by_cases h59 : T ≤ 59
  · -- the whole container fits into the Start frame
    have hnT : n = T := by omega
    have hcs : chunksFrom (T - n) = [] := by
      rw [hnT, Nat.sub_self, chunksFrom]
      simp
    rw [hcs]
    refine ⟨?_, by rw [callAt_zero]; exact hobs, ?_, ?_⟩
    · simp only [List.length_nil, Nat.zero_add]
      rw [runFrom_succ, runFrom, hsess, hnT]
      rw [if_neg (by omega)]
      norm_num
    · intro i hi
      simp at hi
    · simp only [List.sum_nil]
      omega
  · -- Start chunk of 59 bytes, then the Continue phase
    have hn59 : n = 59 := by omega
    have hact : s.container_blob_offset + n < s.container_blob_offset + T := by omega
    rw [if_pos hact] at hsess
    set r := chipset_next_command blob s buf with hr
    have haux := active_run_aux (T - n) blob r.session r.buf
      (by rw [hsess]) (by rw [hsess]; simpa using hact)
      (by rw [hsess]; simpa using hTle) hL
      (by rw [hsess]; simp)
      (by rw [hsess]; simp; omega)
    obtain ⟨hauxsess, hauxobs⟩ := haux
    refine ⟨?_, by rw [callAt_zero]; exact hobs, ?_, ?_⟩
    · rw [runFrom_succ, ← hr, hauxsess, hsess]
    · intro i hi
      have h1i : 1 + i = i + 1 := by omega
      rw [h1i, callAt_succ, ← hr]
      obtain ⟨ho, hs⟩ := hauxobs i hi
      refine ⟨ho, ?_⟩
      rw [hs, hsess, h1i]
    · rw [chunksFrom_sum]
      omega

/-! ### Well-formed blobs -/

theorem wfFrom_end (blob : List Nat) (off : Nat) (hoff : blob.length ≤ off)
    (h : wfFrom blob off = true) : off = blob.length := by
  rw [wfFrom, if_pos hoff] at h
  exact beq_iff_eq.mp h

theorem wfFrom_unfold (blob : List Nat) (off : Nat)
    (hoff : off < blob.length) (h : wfFrom blob off = true) :
    little_endian_read_32 blob off = 0x656d3933 ∧
    8 ≤ little_endian_read_32 blob (off + 4) ∧
    off + little_endian_read_32 blob (off + 4) ≤ blob.length ∧
    wfFrom blob (off + little_endian_read_32 blob (off + 4)) = true := by
  rw [wfFrom, if_neg (by omega)] at h
  by_cases h8 : 8 ≤ little_endian_read_32 blob (off + 4)
  · rw [dif_pos h8] at h
    by_cases hle : off + little_endian_read_32 blob (off + 4) ≤ blob.length
    · rw [dif_pos hle] at h
      rw [Bool.and_eq_true, beq_iff_eq] at h
      exact ⟨h.1, h8, hle, h.2⟩
    · rw [dif_neg hle] at h
      exact absurd h (by simp)
  · rw [dif_neg h8] at h
    exact absurd h (by simp)

theorem containerStarts_nil (blob : List Nat) (off : Nat)
    (hoff : blob.length ≤ off) : containerStarts blob off = [] := by
  rw [containerStarts, if_pos hoff]

theorem containerStarts_cons (blob : List Nat) (off : Nat)
    (hoff : off < blob.length) (hwf : wfFrom blob off = true) :
    containerStarts blob off =
      off :: containerStarts blob (off + little_endian_read_32 blob (off + 4)) := by
  obtain ⟨htag, h8, hle, hwf2⟩ := wfFrom_unfold blob off hoff hwf
  rw [containerStarts, if_neg (by omega), dif_pos h8, dif_pos hle]

theorem sessionInv_step (blob : List Nat) (s : Session) (buf : Buf)
    (hL : blob.length < 2 ^ 32) (hinv : SessionInv blob s) :
    SessionInv blob (chipset_next_command blob s buf).session ∧
    s.container_blob_offset ≤
      (chipset_next_command blob s buf).session.container_blob_offset := by
  obtain ⟨hle, hidle, hactive⟩ := hinv
  by_cases hoff : blob.length ≤ s.container_blob_offset
  · by_cases hr : s.em_cpu_reset_sent = true
    · rw [step_done blob s buf hoff hr]
      exact ⟨⟨hle, hidle, hactive⟩, le_refl _⟩
    · rw [step_reset blob s buf hoff (by simpa using hr)]
      exact ⟨⟨hle, hidle, hactive⟩, le_refl _⟩
  · push_neg at hoff
    cases hup : s.upload_state with
    | idle =>
      obtain ⟨htag, h8, hTle, hwf2⟩ := wfFrom_unfold blob _ hoff (hidle hup)
      obtain ⟨hsess, -, -, -, -, -⟩ := good_start_step blob s buf hup hoff htag (by omega)
      rw [hsess]
      constructor
      · refine ⟨by simp; omega, ?_, ?_⟩
        · intro hst
          simp only at hst ⊢
          by_cases hlt : s.container_blob_offset + min 59 (little_endian_read_32 blob (s.container_blob_offset + 4)) <
              s.container_blob_offset + little_endian_read_32 blob (s.container_blob_offset + 4)
          · rw [if_pos hlt] at hst
            exact absurd hst (by simp)
          · have : min 59 (little_endian_read_32 blob (s.container_blob_offset + 4)) =
                little_endian_read_32 blob (s.container_blob_offset + 4) := by omega
            rw [this]
            exact hwf2
        · intro hst
          simp only at hst ⊢
          by_cases hlt : s.container_blob_offset + min 59 (little_endian_read_32 blob (s.container_blob_offset + 4)) <
              s.container_blob_offset + little_endian_read_32 blob (s.container_blob_offset + 4)
          · exact ⟨hlt, hTle, hwf2⟩
          · rw [if_neg hlt] at hst
            exact absurd hst (by simp)
      · simp
    | active =>
      obtain ⟨hoe, hEle, hwfE⟩ := hactive hup
      obtain ⟨hsess, -, -, -, -, -⟩ := good_cont_step blob s buf hup hoff hoe (by omega)
      rw [hsess]
      have hnle : min 58 (s.container_end - s.container_blob_offset) ≤
          s.container_end - s.container_blob_offset := Nat.min_le_right _ _
      constructor
      · refine ⟨by simp; omega, ?_, ?_⟩
        · intro hst
          simp only at hst ⊢
          by_cases hend : s.container_end ≤ s.container_blob_offset +
              min 58 (s.container_end - s.container_blob_offset)
          · have : s.container_blob_offset +
                min 58 (s.container_end - s.container_blob_offset) = s.container_end := by
              omega
            rw [this]
            exact hwfE
          · rw [if_neg hend] at hst
            exact absurd hst (by simp)
        · intro hst
          simp only at hst ⊢
          by_cases hend : s.container_end ≤ s.container_blob_offset +
              min 58 (s.container_end - s.container_blob_offset)
          · rw [if_pos hend] at hst
            exact absurd hst (by simp)
          · exact ⟨by omega, hEle, hwfE⟩
      · simp

theorem mem_containerStarts_wf (blob : List Nat) : ∀ (off : Nat),
    wfFrom blob off = true →
    ∀ c ∈ containerStarts blob off, wfFrom blob c = true ∧ c < blob.length := by
  suffices h : ∀ meas off, blob.length - off = meas →
      wfFrom blob off = true →
      ∀ c ∈ containerStarts blob off, wfFrom blob c = true ∧ c < blob.length by
    intro off
    exact h (blob.length - off) off rfl
  intro meas
  induction meas using Nat.strong_induction_on with
  | _ meas ih =>
    intro off hmeas hwf c hc
    by_cases hoff : blob.length ≤ off
    · rw [containerStarts_nil blob off hoff] at hc
      simp at hc
    · push_neg at hoff
      obtain ⟨htag, h8, hTle, hwf2⟩ := wfFrom_unfold blob off hoff hwf
      rw [containerStarts_cons blob off hoff hwf] at hc
      rcases List.mem_cons.mp hc with hceq | hcmem
      · exact hceq ▸ ⟨hwf, hoff⟩
      · exact ih (blob.length - (off + little_endian_read_32 blob (off + 4)))
          (by omega) _ rfl hwf2 c hcmem

/-- Every container start of a well-formed blob is reached by the run, in
`idle` phase, with the reset flag still as it started. -/
theorem containers_run (blob : List Nat) : ∀ (off : Nat) (s : Session) (buf : Buf),
    s.upload_state = .idle →
    s.container_blob_offset = off →
    wfFrom blob off = true →
    blob.length < 2 ^ 32 →
    ∀ c ∈ containerStarts blob off,
      ∃ base e q, (runFrom blob s buf base).1 =
        ⟨c, e, q, s.em_cpu_reset_sent, .idle⟩ := by
  suffices h : ∀ meas off, blob.length - off = meas →
      ∀ (s : Session) (buf : Buf),
      s.upload_state = .idle →
      s.container_blob_offset = off →
      wfFrom blob off = true →
      blob.length < 2 ^ 32 →
      ∀ c ∈ containerStarts blob off,
        ∃ base e q, (runFrom blob s buf base).1 =
          ⟨c, e, q, s.em_cpu_reset_sent, .idle⟩ by
    intro off
    exact h (blob.length - off) off rfl
  intro meas
  induction meas using Nat.strong_induction_on with
  | _ meas ih =>
    intro off hmeas s buf hst hso hwf hL c hc
    by_cases hoff : blob.length ≤ off
    · rw [containerStarts_nil blob off hoff] at hc
      simp at hc
    · push_neg at hoff
      obtain ⟨htag, h8, hTle, hwf2⟩ := wfFrom_unfold blob off hoff hwf
      rw [containerStarts_cons blob off hoff hwf] at hc
      rcases List.mem_cons.mp hc with hceq | hcmem
      · subst hceq
        refine ⟨0, s.container_end, s.patch_sequence_number, ?_⟩
        rw [runFrom]
        obtain ⟨o', e', q', r', st'⟩ := s
        simp only at hst hso ⊢
        rw [hst, hso]
      · obtain ⟨hrsess, -, -, -⟩ := container_run blob s buf
          (little_endian_read_32 blob (off + 4)) (min 59 (little_endian_read_32 blob (off + 4)))
          hst (hso ▸ htag) (by rw [hso]) h8 (by omega) hL rfl
        set K1 := (chunksFrom (little_endian_read_32 blob (off + 4) -
          min 59 (little_endian_read_32 blob (off + 4)))).length + 1 with hK1
        obtain ⟨base, e, q, hbase⟩ := ih
          (blob.length - (off + little_endian_read_32 blob (off + 4))) (by omega)
          _ rfl (runFrom blob s buf K1).1 (runFrom blob s buf K1).2
          (by rw [hrsess]) (by rw [hrsess]; simp; omega) hwf2 hL c hcmem
        refine ⟨K1 + base, e, q, ?_⟩
        rw [runFrom_add, hbase, hrsess]

theorem xor_mod_two (a b : Nat) : (a ^^^ b) % 2 = (a % 2 + b % 2) % 2 := by
  have h := Nat.xor_mod_two_eq_one (a := a) (b := b)
  rcases Nat.mod_two_eq_zero_or_one a with ha | ha <;>
    rcases Nat.mod_two_eq_zero_or_one b with hb | hb <;>
    rcases Nat.mod_two_eq_zero_or_one (a ^^^ b) with hx | hx <;>
    simp [ha, hb, hx] at h ⊢ <;> omega

theorem xor_div_two_pow (k a b : Nat) : (a ^^^ b) / 2 ^ k = a / 2 ^ k ^^^ b / 2 ^ k := by
  induction k with
  | zero => simp
  | succ k ihk =>
    rw [pow_succ, ← Nat.div_div_eq_div_mul, ← Nat.div_div_eq_div_mul,
      ← Nat.div_div_eq_div_mul, ihk, Nat.xor_div_two]

theorem xor_mod_two_pow (k a b : Nat) : (a ^^^ b) % 2 ^ k = a % 2 ^ k ^^^ b % 2 ^ k := by
  apply Nat.eq_of_testBit_eq
  intro i
  simp only [Nat.testBit_xor, Nat.testBit_mod_two_pow]
  cases h : decide (i < k) <;> simp [h]

theorem crc32_spec_step_linear (a b : Nat) :
    crc32_spec_step (a ^^^ b) = crc32_spec_step a ^^^ crc32_spec_step b := by
  unfold crc32_spec_step
  have hmod := xor_mod_two a b
  rcases Nat.mod_two_eq_zero_or_one a with ha | ha <;>
    rcases Nat.mod_two_eq_zero_or_one b with hb | hb
  · rw [ha, hb] at hmod
    rw [if_neg (by omega), if_neg (by omega), if_neg (by omega), Nat.xor_div_two]
  · rw [ha, hb] at hmod
    rw [if_pos (by omega), if_neg (by omega), if_pos (by omega), Nat.xor_div_two,
      Nat.xor_assoc]
  · rw [ha, hb] at hmod
    rw [if_pos (by omega), if_pos (by omega), if_neg (by omega), Nat.xor_div_two,
      Nat.xor_assoc, Nat.xor_assoc, Nat.xor_comm 0xEDB88320 (b / 2)]
  · rw [ha, hb] at hmod
    rw [if_neg (by omega), if_pos (by omega), if_pos (by omega), Nat.xor_div_two,
      Nat.xor_assoc, ← Nat.xor_assoc 0xEDB88320, Nat.xor_comm 0xEDB88320 (b / 2),
      Nat.xor_assoc, Nat.xor_self, Nat.xor_zero]

theorem disj_pow_xor (k : Nat) : ∀ a b : Nat, b < 2 ^ k → 2 ^ k * a ^^^ b = 2 ^ k * a + b := by
  induction k with
  | zero =>
    intro a b hb
    have hb0 : b = 0 := by omega
    simp [hb0]
  | succ k ihk =>
    intro a b hb
    have h2 : 2 ^ (k + 1) = 2 * 2 ^ k := by ring
    have hbd : b / 2 < 2 ^ k := by omega
    have h3 : 2 ^ (k + 1) * a = 2 * (2 ^ k * a) := by rw [h2, mul_assoc]
    have hx2 : (2 ^ (k + 1) * a ^^^ b) % 2 = b % 2 := by
      rw [xor_mod_two, h3, Nat.mul_mod_right]
      omega
    have hxd : (2 ^ (k + 1) * a ^^^ b) / 2 = 2 ^ k * a + b / 2 := by
      rw [Nat.xor_div_two, h3, Nat.mul_div_cancel_left _ (by omega : 0 < 2),
        ihk a (b / 2) hbd]
    omega

theorem nibble_decomp (x : Nat) : 16 * (x / 16) ^^^ x % 16 = x := by
  have h := disj_pow_xor 4 (x / 16) (x % 16) (by omega)
  norm_num at h
  rw [h]
  omega

theorem crc32_spec_step4_linear (a b : Nat) :
    crc32_spec_step^[4] (a ^^^ b) = crc32_spec_step^[4] a ^^^ crc32_spec_step^[4] b := by
  show crc32_spec_step (crc32_spec_step (crc32_spec_step (crc32_spec_step (a ^^^ b)))) =
    crc32_spec_step (crc32_spec_step (crc32_spec_step (crc32_spec_step a))) ^^^
      crc32_spec_step (crc32_spec_step (crc32_spec_step (crc32_spec_step b)))
  rw [crc32_spec_step_linear, crc32_spec_step_linear, crc32_spec_step_linear,
    crc32_spec_step_linear]

theorem crc32_spec_step_even (a : Nat) (h : a % 2 = 0) : crc32_spec_step a = a / 2 := by
  rw [crc32_spec_step, if_neg (by omega)]

theorem crc32_spec_step4_mul16 (a : Nat) : crc32_spec_step^[4] (16 * a) = a := by
  have h1 : crc32_spec_step (16 * a) = 8 * a := by
    rw [crc32_spec_step_even _ (by omega)]
    omega
  have h2 : crc32_spec_step (8 * a) = 4 * a := by
    rw [crc32_spec_step_even _ (by omega)]
    omega
  have h3 : crc32_spec_step (4 * a) = 2 * a := by
    rw [crc32_spec_step_even _ (by omega)]
    omega
  have h4 : crc32_spec_step (2 * a) = a := by
    rw [crc32_spec_step_even _ (by omega)]
    omega
  show crc32_spec_step (crc32_spec_step (crc32_spec_step (crc32_spec_step (16 * a)))) = a
  rw [h1, h2, h3, h4]

theorem crc32_spec_step4_table (r : Nat) (h : r < 16) :
    crc32_spec_step^[4] r = crc32_table.getD r 0 := by
  interval_cases r <;> rfl

theorem crc32_spec_step4_formula (x : Nat) :
    crc32_spec_step^[4] x = x / 16 ^^^ crc32_table.getD (x % 16) 0 := by
  conv_lhs => rw [← nibble_decomp x]
  rw [crc32_spec_step4_linear, crc32_spec_step4_mul16,
    crc32_spec_step4_table (x % 16) (by omega)]

theorem xor_div_16 (a b : Nat) : (a ^^^ b) / 16 = a / 16 ^^^ b / 16 := by
  have h := xor_div_two_pow 4 a b
  rw [show (2 : Nat) ^ 4 = 16 from rfl] at h
  exact h

theorem xor_mod_16 (a b : Nat) : (a ^^^ b) % 16 = a % 16 ^^^ b % 16 := by
  have h := xor_mod_two_pow 4 a b
  rw [show (2 : Nat) ^ 4 = 16 from rfl] at h
  exact h

theorem crc32_update_eq_spec (c b : Nat) : crc32_update c b = crc32_spec_update c b := by
  have h8 : crc32_spec_step^[8] (c ^^^ b % 256) =
      crc32_spec_step^[4] (crc32_spec_step^[4] (c ^^^ b % 256)) := by
    rw [show (8 : Nat) = 4 + 4 from rfl, Function.iterate_add_apply]
  have hhb : b % 256 / 16 < 16 := by omega
  have hinner : crc32_spec_step^[4] (c ^^^ b % 256) =
      (c / 16 ^^^ crc32_table.getD (c % 16 ^^^ b % 256 % 16) 0) ^^^ b % 256 / 16 := by
    rw [crc32_spec_step4_formula, xor_div_16, xor_mod_16]
    rw [Nat.xor_assoc, Nat.xor_comm (b % 256 / 16), ← Nat.xor_assoc]
  have houter : crc32_spec_step^[4]
      ((c / 16 ^^^ crc32_table.getD (c % 16 ^^^ b % 256 % 16) 0) ^^^ b % 256 / 16) =
      (c / 16 ^^^ crc32_table.getD (c % 16 ^^^ b % 256 % 16) 0) / 16 ^^^
        crc32_table.getD
          ((c / 16 ^^^ crc32_table.getD (c % 16 ^^^ b % 256 % 16) 0) % 16 ^^^ b % 256 / 16) 0 := by
    rw [crc32_spec_step4_formula, xor_div_16, xor_mod_16]
    rw [Nat.div_eq_of_lt hhb, Nat.xor_zero, Nat.mod_eq_of_lt hhb]
  rw [crc32_spec_update, h8, hinner, houter]
  rfl

theorem btstack_crc32_eq_spec (l : List Nat) : btstack_crc32 l = crc32_spec l := by
  unfold btstack_crc32 crc32_spec
  have hfold : ∀ (m : List Nat) (c : Nat),
      m.foldl crc32_update c = m.foldl crc32_spec_update c := by
    intro m
    induction m with
    | nil => intro c; rfl
    | cons x xs ih =>
      intro c
      rw [List.foldl_cons, List.foldl_cons, crc32_update_eq_spec, ih]
  rw [hfold]

theorem reset_step_obs (blob : List Nat) (s : Session) (buf : Buf)
    (hoff : blob.length ≤ s.container_blob_offset)
    (hr : s.em_cpu_reset_sent = false) :
    obsOf (chipset_next_command blob s buf) = ⟨.validCommand, 0xFC32, 0⟩ ∧
    (chipset_next_command blob s buf).session = { s with em_cpu_reset_sent := true } := by
  rw [step_reset blob s buf hoff hr]
  constructor
  · simp [obsOf, bufStore, little_endian_store_16, HCI_OPCODE_EM_CPU_RESET]
  · rfl

theorem baudrate_found_115200 : baudrate_found 115200 = 10 := by rfl

theorem baudrate_found_zero : baudrate_found 0 = 0 := by rfl

theorem baudrate_found_of_not_mem (rate : Nat) (h : rate ∉ baudrates) :
    baudrate_found rate = 0 := by
  unfold baudrate_found
  cases hf : (List.range baudrates.length).find? (fun i => baudrates.getD i 0 == rate) with
  | none => rfl
  | some i =>
    exfalso
    have hpred := List.find?_some hf
    have hmem := List.mem_of_find?_eq_some hf
    rw [List.mem_range] at hmem
    rw [beq_iff_eq] at hpred
    apply h
    rw [← hpred, List.getD_eq_getElem _ _ hmem]
    exact List.getElem_mem _

/-- After `j` maximal (58-byte) Continue steps that stay strictly inside
the container, the cursor has advanced by `58 * j` and the sequence
counter by `j` (mod `2^16`). -/
theorem active_steps_full (blob : List Nat) (j : Nat) : ∀ (s : Session) (buf : Buf),
    s.upload_state = .active →
    s.container_end ≤ blob.length →
    blob.length < 2 ^ 32 →
    s.patch_sequence_number < 2 ^ 16 →
    s.container_blob_offset + 58 * j < s.container_end →
    (runFrom blob s buf j).1 =
      ⟨s.container_blob_offset + 58 * j, s.container_end,
        (s.patch_sequence_number + j) % 2 ^ 16, s.em_cpu_reset_sent, .active⟩ := by
  induction j with
  | zero =>
    intro s buf hst hEle hL hq hin
    obtain ⟨o', e', q', r', st'⟩ := s
    simp only at hst hq hin ⊢
    rw [runFrom]
    simp only [hst, Session.mk.injEq]
    refine ⟨by omega, by trivial, by omega, by trivial⟩
  | succ j ihj =>
    intro s buf hst hEle hL hq hin
    have hoe : s.container_blob_offset < s.container_end := by omega
    obtain ⟨hsess, -, -, -, -, -⟩ :=
      good_cont_step blob s buf hst (by omega) hoe (by omega)
    have hn : min 58 (s.container_end - s.container_blob_offset) = 58 := by omega
    rw [hn] at hsess
    rw [if_neg (by omega)] at hsess
    rw [runFrom_succ, ihj _ _ (by rw [hsess]) (by rw [hsess]; simpa using hEle) hL
      (by rw [hsess]; exact Nat.mod_lt _ (by omega))
      (by rw [hsess]; simp; omega)]
    rw [hsess]
    simp only [Session.mk.injEq]
    refine ⟨by omega, by trivial, ?_, by trivial⟩
    rw [Nat.mod_add_mod]
    omega

theorem runFrom_succ_back (blob : List Nat) (s : Session) (buf : Buf) (k : Nat) :
    runFrom blob s buf (k + 1) =
      ((chipset_next_command blob (runFrom blob s buf k).1 (runFrom blob s buf k).2).session,
       (chipset_next_command blob (runFrom blob s buf k).1 (runFrom blob s buf k).2).buf) := by
  rw [runFrom_add blob s buf k 1]
  rfl

theorem sessionInv_run (blob : List Nat) (s : Session) (buf : Buf)
    (hL : blob.length < 2 ^ 32) (hinv : SessionInv blob s) :
    ∀ k, SessionInv blob (runFrom blob s buf k).1 := by
  intro k
  induction k with
  | zero => exact hinv
  | succ k ihk =>
    rw [runFrom_succ_back]
    exact (sessionInv_step blob _ _ hL ihk).1

/-! ### Claims -/

/-- C1 (counterexample): on a blob whose first container tag is corrupted,
the very first call returns `BTSTACK_CHIPSET_DONE` — the same constructor
an ordinary completed upload returns — and leaves the session unchanged in
`idle`: there is no separate terminal `Error` state and no failure result
distinct from `Done`. -/
theorem C1_counterexample :
    (chipset_next_command blobBadTag freshS buf0).result = ChipsetResult.done ∧
    (chipset_next_command blobBadTag freshS buf0).session = freshS ∧
    (chipset_next_command blobOne doneS buf0).result = ChipsetResult.done ∧
    (chipset_next_command blobBadTag freshS buf0).result =
      (chipset_next_command blobOne doneS buf0).result := by
  refine ⟨by decide, by decide, by decide, by decide⟩

/-- C1 (amended): if `produce_next_command` runs in phase `idle` with the
cursor inside the blob and the 4-byte tag at the cursor differs from
0x656d3933, then no command is produced, the session and the buffer are
left unchanged, and the call returns `BTSTACK_CHIPSET_DONE` — the same
value as ordinary completion; every later call repeats this, so the
machine is terminal in effect. -/
theorem C1_tag_mismatch_plain_done (blob : List Nat) (s : Session) (buf : Buf)
    (hoff : s.container_blob_offset < blob.length)
    (hst : s.upload_state = .idle)
    (htag : little_endian_read_32 blob s.container_blob_offset ≠ 0x656d3933) :
    chipset_next_command blob s buf = ⟨s, buf, .done⟩ ∧
    (∀ j, runFrom blob s buf j = (s, buf)) ∧
    (∀ j, (callAt blob s buf j).result = .done) := by
  have hfix := step_badtag blob s buf hoff hst htag
  exact ⟨hfix, fun j => (run_fixpoint blob s buf hfix j).1,
    fun j => (run_fixpoint blob s buf hfix j).2⟩

/-- C1 witness: the amended theorem applied to the concrete corrupted
blob. -/
theorem C1_witness :
    (freshS.container_blob_offset < blobBadTag.length ∧
     freshS.upload_state = UploadState.idle ∧
     little_endian_read_32 blobBadTag freshS.container_blob_offset ≠ 0x656d3933) ∧
    (chipset_next_command blobBadTag freshS buf0 = ⟨freshS, buf0, .done⟩ ∧
     (∀ j, runFrom blobBadTag freshS buf0 j = (freshS, buf0)) ∧
     (∀ j, (callAt blobBadTag freshS buf0 j).result = .done)) :=
  ⟨⟨by decide, by decide, by decide⟩,
   C1_tag_mismatch_plain_done blobBadTag freshS buf0 (by decide) (by decide) (by decide)⟩

/-- C3: `btstack_crc32` implements the standard reflected CRC-32 with
polynomial 0xEDB88320 (all-ones initial register, two 4-bit lookups per
byte — low nibble first — final complement): it agrees with the bit-level
reference on every byte string, maps the empty string to 0 and the ASCII
digits "123456789" to 0xCBF43926. -/
theorem C3_crc32_standard :
    (∀ l : List Nat, btstack_crc32 l = crc32_spec l) ∧
    btstack_crc32 [] = 0 ∧
    btstack_crc32 [0x31, 0x32, 0x33, 0x34, 0x35, 0x36, 0x37, 0x38, 0x39] = 0xCBF43926 :=
  ⟨btstack_crc32_eq_spec, by decide, by decide⟩

/-- C5: frame layout.  A Start frame carries opcode 0xFC27, length byte
`5 + n`, the zero destination marker, the little-endian CRC32 of exactly
the `n` chunk bytes, and the chunk itself, where `n = min 59 (container_end
- cursor)`.  A Continue frame carries opcode 0xFC28, length byte `6 + n`,
the 2-byte little-endian sequence number, the CRC32 of exactly the chunk,
and the chunk, where `n = min 58 (container_end - cursor)`. -/
theorem C5_frame_layout (blob : List Nat) (s : Session) (buf : Buf) :
    (s.upload_state = .idle →
     s.container_blob_offset < blob.length →
     little_endian_read_32 blob s.container_blob_offset = 0x656d3933 →
     s.container_blob_offset + little_endian_read_32 blob (s.container_blob_offset + 4) < 2 ^ 32 →
     obsOf (chipset_next_command blob s buf) =
       ⟨.validCommand, 0xFC27,
        5 + min 59 (s.container_blob_offset +
          little_endian_read_32 blob (s.container_blob_offset + 4) - s.container_blob_offset)⟩ ∧
     (chipset_next_command blob s buf).buf 3 = 0 ∧
     (∀ i, i < min 59 (little_endian_read_32 blob (s.container_blob_offset + 4)) →
       (chipset_next_command blob s buf).buf (8 + i) = blobByte blob (s.container_blob_offset + i)) ∧
     (chipset_next_command blob s buf).buf 4 + 256 * (chipset_next_command blob s buf).buf 5 +
       65536 * (chipset_next_command blob s buf).buf 6 +
       16777216 * (chipset_next_command blob s buf).buf 7 =
       btstack_crc32 (blobSlice blob s.container_blob_offset
         (min 59 (little_endian_read_32 blob (s.container_blob_offset + 4))))) ∧
    (s.upload_state = .active →
     s.container_blob_offset < blob.length →
     s.container_blob_offset < s.container_end →
     s.container_end < 2 ^ 32 →
     obsOf (chipset_next_command blob s buf) =
       ⟨.validCommand, 0xFC28, 6 + min 58 (s.container_end - s.container_blob_offset)⟩ ∧
     seqFieldOf (chipset_next_command blob s buf) = s.patch_sequence_number % 2 ^ 16 ∧
     (∀ i, i < min 58 (s.container_end - s.container_blob_offset) →
       (chipset_next_command blob s buf).buf (9 + i) = blobByte blob (s.container_blob_offset + i)) ∧
     (chipset_next_command blob s buf).buf 5 + 256 * (chipset_next_command blob s buf).buf 6 +
       65536 * (chipset_next_command blob s buf).buf 7 +
       16777216 * (chipset_next_command blob s buf).buf 8 =
       btstack_crc32 (blobSlice blob s.container_blob_offset
         (min 58 (s.container_end - s.container_blob_offset)))) := by
  constructor
  · intro hst hoff htag hwrap
    obtain ⟨-, -, hobs, hmark, hdata, hcrc⟩ := good_start_step blob s buf hst hoff htag hwrap
    refine ⟨?_, hmark, hdata, hcrc⟩
    rw [hobs]
    have : s.container_blob_offset + little_endian_read_32 blob (s.container_blob_offset + 4) -
        s.container_blob_offset = little_endian_read_32 blob (s.container_blob_offset + 4) := by
      omega
    rw [this]
  · intro hst hoff hoe hEw
    obtain ⟨-, -, hobs, hseq, hdata, hcrc⟩ := good_cont_step blob s buf hst hoff hoe hEw
    exact ⟨hobs, hseq, hdata, hcrc⟩

/-- C5 witness: the layout theorem at the single-container blob, for a
fresh (Start) and a mid-container (Continue) session. -/
theorem C5_witness :
    (freshS.upload_state = UploadState.idle ∧
     freshS.container_blob_offset < blobOne.length ∧
     little_endian_read_32 blobOne freshS.container_blob_offset = 0x656d3933 ∧
     freshS.container_blob_offset +
       little_endian_read_32 blobOne (freshS.container_blob_offset + 4) < 2 ^ 32 ∧
     activeS.upload_state = UploadState.active ∧
     activeS.container_blob_offset < blobOne.length ∧
     activeS.container_blob_offset < activeS.container_end ∧
     activeS.container_end < 2 ^ 32) ∧
    (obsOf (chipset_next_command blobOne freshS buf0) =
       ⟨.validCommand, 0xFC27,
        5 + min 59 (freshS.container_blob_offset +
          little_endian_read_32 blobOne (freshS.container_blob_offset + 4) -
            freshS.container_blob_offset)⟩ ∧
     (chipset_next_command blobOne freshS buf0).buf 3 = 0 ∧
     (∀ i, i < min 59 (little_endian_read_32 blobOne (freshS.container_blob_offset + 4)) →
       (chipset_next_command blobOne freshS buf0).buf (8 + i) =
         blobByte blobOne (freshS.container_blob_offset + i)) ∧
     (chipset_next_command blobOne freshS buf0).buf 4 +
       256 * (chipset_next_command blobOne freshS buf0).buf 5 +
       65536 * (chipset_next_command blobOne freshS buf0).buf 6 +
       16777216 * (chipset_next_command blobOne freshS buf0).buf 7 =
       btstack_crc32 (blobSlice blobOne freshS.container_blob_offset
         (min 59 (little_endian_read_32 blobOne (freshS.container_blob_offset + 4))))) ∧
    (obsOf (chipset_next_command blobOne activeS buf0) =
       ⟨.validCommand, 0xFC28, 6 + min 58 (activeS.container_end - activeS.container_blob_offset)⟩ ∧
     seqFieldOf (chipset_next_command blobOne activeS buf0) =
       activeS.patch_sequence_number % 2 ^ 16 ∧
     (∀ i, i < min 58 (activeS.container_end - activeS.container_blob_offset) →
       (chipset_next_command blobOne activeS buf0).buf (9 + i) =
         blobByte blobOne (activeS.container_blob_offset + i)) ∧
     (chipset_next_command blobOne activeS buf0).buf 5 +
       256 * (chipset_next_command blobOne activeS buf0).buf 6 +
       65536 * (chipset_next_command blobOne activeS buf0).buf 7 +
       16777216 * (chipset_next_command blobOne activeS buf0).buf 8 =
       btstack_crc32 (blobSlice blobOne activeS.container_blob_offset
         (min 58 (activeS.container_end - activeS.container_blob_offset)))) :=
  ⟨⟨by decide, by decide, by decide, by decide, by decide, by decide, by decide, by decide⟩,
   (C5_frame_layout blobOne freshS buf0).1 (by decide) (by decide) (by decide) (by decide),
   (C5_frame_layout blobOne activeS buf0).2 (by decide) (by decide) (by decide) (by decide)⟩

/-- C7: `chipset_set_baudrate_command` with 115200 writes table index 10
as the single payload byte with length byte 1 (and the vendor opcode
0xFC07); any rate absent from the table leaves every byte of the buffer
unmodified — the failure is reported by producing nothing rather than a
zero-length command. -/
theorem C7_baudrate_command :
    (∀ buf : Buf,
      chipset_set_baudrate_command 115200 buf 3 = 10 ∧
      chipset_set_baudrate_command 115200 buf 2 = 1 ∧
      chipset_set_baudrate_command 115200 buf 0 +
        256 * chipset_set_baudrate_command 115200 buf 1 = 0xFC07) ∧
    (∀ (rate : Nat) (buf : Buf), rate ∉ baudrates →
      chipset_set_baudrate_command rate buf = buf) := by
  constructor
  · intro buf
    have h : chipset_set_baudrate_command 115200 buf =
        bufStore (bufStore (little_endian_store_16 buf 0 0xFC07) 2 1) 3 10 := by
      unfold chipset_set_baudrate_command
      rw [baudrate_found_115200]
      rw [if_neg (by norm_num)]
    rw [h]
    refine ⟨?_, ?_, ?_⟩ <;>
      simp [bufStore, little_endian_store_16]
  · intro rate buf hmem
    unfold chipset_set_baudrate_command
    rw [baudrate_found_of_not_mem rate hmem]
    simp

/-- C7 witness: 115200 writes index 10; the unsupported rate 338 leaves
the buffer untouched. -/
theorem C7_witness :
    (338 ∉ baudrates) ∧
    chipset_set_baudrate_command 338 buf0 = buf0 ∧
    (chipset_set_baudrate_command 115200 buf0 3 = 10 ∧
     chipset_set_baudrate_command 115200 buf0 2 = 1 ∧
     chipset_set_baudrate_command 115200 buf0 0 +
       256 * chipset_set_baudrate_command 115200 buf0 1 = 0xFC07) :=
  ⟨by decide, C7_baudrate_command.2 338 buf0 (by decide), C7_baudrate_command.1 buf0⟩

/-- C8: once the cursor is at or past the blob end with the reset already
sent, every call is a no-op: it returns `Done`, writes nothing, and leaves
the session and buffer exactly as they are, forever. -/
theorem C8_done_noop (blob : List Nat) (s : Session) (buf : Buf)
    (hoff : blob.length ≤ s.container_blob_offset)
    (hr : s.em_cpu_reset_sent = true) :
    chipset_next_command blob s buf = ⟨s, buf, .done⟩ ∧
    (∀ j, runFrom blob s buf j = (s, buf)) ∧
    (∀ j, (callAt blob s buf j).result = .done) := by
  have hfix := step_done blob s buf hoff hr
  exact ⟨hfix, fun j => (run_fixpoint blob s buf hfix j).1,
    fun j => (run_fixpoint blob s buf hfix j).2⟩

/-- C8 witness: the no-op theorem at the finished 12-byte upload. -/
theorem C8_witness :
    (blobOne.length ≤ doneS.container_blob_offset ∧
     doneS.em_cpu_reset_sent = true) ∧
    (chipset_next_command blobOne doneS buf0 = ⟨doneS, buf0, .done⟩ ∧
     (∀ j, runFrom blobOne doneS buf0 j = (doneS, buf0)) ∧
     (∀ j, (callAt blobOne doneS buf0 j).result = .done)) :=
  ⟨⟨by decide, by decide⟩, C8_done_noop blobOne doneS buf0 (by decide) (by decide)⟩

/-- C9: the Start frame's data begins at the container's very first byte,
so the 8-byte header (magic tag and total-size field) is uploaded and is
covered by the frame's CRC32, and the chunk sizes of one container sum to
`total_size` itself — not `total_size - 8`. -/
theorem C9_header_uploaded (blob : List Nat) (s : Session) (buf : Buf) (T : Nat)
    (hst : s.upload_state = .idle)
    (htag : little_endian_read_32 blob s.container_blob_offset = 0x656d3933)
    (hTdef : little_endian_read_32 blob (s.container_blob_offset + 4) = T)
    (hT8 : 8 ≤ T)
    (hTle : s.container_blob_offset + T ≤ blob.length)
    (hL : blob.length < 2 ^ 32) :
    (∀ i, i < 8 → (chipset_next_command blob s buf).buf (8 + i) =
      blobByte blob (s.container_blob_offset + i)) ∧
    (chipset_next_command blob s buf).buf 4 + 256 * (chipset_next_command blob s buf).buf 5 +
      65536 * (chipset_next_command blob s buf).buf 6 +
      16777216 * (chipset_next_command blob s buf).buf 7 =
      btstack_crc32 (blobSlice blob s.container_blob_offset (min 59 T)) ∧
    min 59 T + (chunksFrom (T - min 59 T)).sum = T ∧
    min 59 T + (chunksFrom (T - min 59 T)).sum ≠ T - 8 := by
  have hoff : s.container_blob_offset < blob.length := by omega
  have hwrap : s.container_blob_offset +
      little_endian_read_32 blob (s.container_blob_offset + 4) < 2 ^ 32 := by
    rw [hTdef]; omega
  obtain ⟨-, -, -, -, hdata, hcrc⟩ := good_start_step blob s buf hst hoff htag hwrap
  rw [hTdef] at hdata hcrc
  have hsum : min 59 T + (chunksFrom (T - min 59 T)).sum = T := by
    rw [chunksFrom_sum]
    omega
  refine ⟨fun i hi => hdata i (by omega), hcrc, hsum, by omega⟩

/-- C9 witness: the header-upload theorem at the single-container blob. -/
theorem C9_witness :
    (freshS.upload_state = UploadState.idle ∧
     little_endian_read_32 blobOne freshS.container_blob_offset = 0x656d3933 ∧
     little_endian_read_32 blobOne (freshS.container_blob_offset + 4) = 12 ∧
     8 ≤ 12 ∧
     freshS.container_blob_offset + 12 ≤ blobOne.length ∧
     blobOne.length < 2 ^ 32) ∧
    ((∀ i, i < 8 → (chipset_next_command blobOne freshS buf0).buf (8 + i) =
       blobByte blobOne (freshS.container_blob_offset + i)) ∧
     (chipset_next_command blobOne freshS buf0).buf 4 +
       256 * (chipset_next_command blobOne freshS buf0).buf 5 +
       65536 * (chipset_next_command blobOne freshS buf0).buf 6 +
       16777216 * (chipset_next_command blobOne freshS buf0).buf 7 =
       btstack_crc32 (blobSlice blobOne freshS.container_blob_offset (min 59 12)) ∧
     min 59 12 + (chunksFrom (12 - min 59 12)).sum = 12 ∧
     min 59 12 + (chunksFrom (12 - min 59 12)).sum ≠ 12 - 8) :=
  ⟨⟨by decide, by decide, by decide, by decide, by decide, by decide⟩,
   C9_header_uploaded blobOne freshS buf0 12 (by decide) (by decide) (by decide)
     (by decide) (by decide) (by decide)⟩

/-- C10: the baudrate table holds 0 at indices 0, 1 and 2, yet a request
for rate 0 writes nothing: the loop stores the found index in the success
flag, so a match at index 0 is indistinguishable from no match. -/
theorem C10_baudrate_zero :
    baudrates.getD 0 0 = 0 ∧ baudrates.getD 1 0 = 0 ∧ baudrates.getD 2 0 = 0 ∧
    baudrate_found 0 = 0 ∧
    (∀ buf : Buf, chipset_set_baudrate_command 0 buf = buf) := by
  refine ⟨rfl, rfl, rfl, baudrate_found_zero, fun buf => ?_⟩
  unfold chipset_set_baudrate_command
  rw [if_pos baudrate_found_zero]

/-- C2 (counterexample): for the single-container blob with payload length
P = 4 (total size 12), the run is one Start frame with chunk size 12 —
not 4 — then the Reset frame, then `Done`: the summed chunk sizes equal
P + 8, refuting the claim that they sum to P. -/
theorem C2_counterexample :
    obsOf (callAt blobOne freshS buf0 0) = ⟨.validCommand, 0xFC27, 5 + 12⟩ ∧
    obsOf (callAt blobOne freshS buf0 1) = ⟨.validCommand, 0xFC32, 0⟩ ∧
    (callAt blobOne freshS buf0 2).result = ChipsetResult.done ∧
    blobOne.length = 4 + 8 ∧
    (12 : Nat) ≠ 4 := by
  refine ⟨by decide, by decide, by decide, by decide, by decide⟩

/-- C2 (amended): for a well-formed single-container blob whose container
has payload length P — total size T = P + 8, header included — a fresh run
produces one Start frame with chunk `min 59 (P+8) ≤ 59`, then
`ceil (max 0 ((P+8) - 59) / 58)` Continue frames, then one Reset frame,
then `Done` forever; the chunk sizes of the Start and Continue frames sum
to P + 8 (not P). -/
theorem C2_single_container_run (blob : List Nat) (s : Session) (buf : Buf) (P K : Nat)
    (hlen : blob.length = P + 8)
    (htag : little_endian_read_32 blob 0 = 0x656d3933)
    (hsize : little_endian_read_32 blob 4 = P + 8)
    (hPw : P + 8 < 2 ^ 32)
    (hK : K = (chunksFrom (P + 8 - min 59 (P + 8))).length) :
    K = (P + 8 - 59 + 57) / 58 ∧
    min 59 (P + 8) ≤ 59 ∧
    obsOf (callAt blob (chipset_init s) buf 0) =
      ⟨.validCommand, 0xFC27, 5 + min 59 (P + 8)⟩ ∧
    (∀ i, i < K →
      obsOf (callAt blob (chipset_init s) buf (1 + i)) =
        ⟨.validCommand, 0xFC28,
         6 + (chunksFrom (P + 8 - min 59 (P + 8))).getD i 0⟩) ∧
    obsOf (callAt blob (chipset_init s) buf (K + 1)) = ⟨.validCommand, 0xFC32, 0⟩ ∧
    (∀ j, (callAt blob (chipset_init s) buf (K + 2 + j)).result = .done) ∧
    min 59 (P + 8) + (chunksFrom (P + 8 - min 59 (P + 8))).sum = P + 8 := by
  have hst : (chipset_init s).upload_state = .idle := rfl
  have hoff0 : (chipset_init s).container_blob_offset = 0 := rfl
  have hL : blob.length < 2 ^ 32 := by omega
  obtain ⟨hsess, hobs0, hobsi, hsum⟩ := container_run blob (chipset_init s) buf
    (P + 8) (min 59 (P + 8)) hst (by rw [hoff0]; exact htag)
    (by rw [hoff0]; exact hsize) (by omega) (by rw [hoff0]; omega) hL rfl
  rw [hoff0] at hsess
  rw [← hK] at hsess hobsi
  have hres : (chipset_init s).em_cpu_reset_sent = false := rfl
  rw [hres] at hsess
  -- the session after the container: cursor at the blob end, reset unsent
  have hreset := reset_step_obs blob (runFrom blob (chipset_init s) buf (K + 1)).1
    (runFrom blob (chipset_init s) buf (K + 1)).2
    (by rw [hsess]; simp; omega) (by rw [hsess])
  have hobsK1 : obsOf (callAt blob (chipset_init s) buf (K + 1)) =
      ⟨.validCommand, 0xFC32, 0⟩ := hreset.1
  -- after the reset frame the run is finished for good
  have hdone : ∀ j, (callAt blob (chipset_init s) buf (K + 2 + j)).result = .done := by
    intro j
    have hK2 : K + 2 + j = (K + 1) + (1 + j) := by omega
    rw [hK2, callAt_add]
    have hsess2 : (runFrom blob (runFrom blob (chipset_init s) buf (K + 1)).1
        (runFrom blob (chipset_init s) buf (K + 1)).2 1).1 =
        { (runFrom blob (chipset_init s) buf (K + 1)).1 with em_cpu_reset_sent := true } := by
      rw [runFrom_succ_back]
      rw [runFrom]
      exact hreset.2
    have h1j : 1 + j = 1 + j := rfl
    rw [show (1 + j) = 1 + j from rfl]
    rw [callAt_add    ]
    have hfix := step_done blob
      (runFrom blob (runFrom blob (chipset_init s) buf (K + 1)).1
        (runFrom blob (chipset_init s) buf (K + 1)).2 1).1
      (runFrom blob (runFrom blob (chipset_init s) buf (K + 1)).1
        (runFrom blob (chipset_init s) buf (K + 1)).2 1).2
      (by rw [hsess2, hsess]; simp; omega) (by rw [hsess2])
    exact (run_fixpoint blob _ _ hfix j).2
  refine ⟨?_, Nat.min_le_left _ _, hobs0, fun i hi => (hobsi i hi).1, hobsK1, hdone, hsum⟩
  rw [hK, chunksFrom_length]
  have : P + 8 - min 59 (P + 8) = P + 8 - 59 := by omega
  rw [this]

/-- C2 witness: the amended run theorem at the concrete 12-byte
single-container blob (P = 4, no Continue frames). -/
theorem C2_witness :
    (blobOne.length = 4 + 8 ∧
     little_endian_read_32 blobOne 0 = 0x656d3933 ∧
     little_endian_read_32 blobOne 4 = 4 + 8 ∧
     4 + 8 < 2 ^ 32 ∧
     0 = (chunksFrom (4 + 8 - min 59 (4 + 8))).length) ∧
    (0 = (4 + 8 - 59 + 57) / 58 ∧
     min 59 (4 + 8) ≤ 59 ∧
     obsOf (callAt blobOne (chipset_init freshS) buf0 0) =
       ⟨.validCommand, 0xFC27, 5 + min 59 (4 + 8)⟩ ∧
     (∀ i, i < 0 →
       obsOf (callAt blobOne (chipset_init freshS) buf0 (1 + i)) =
         ⟨.validCommand, 0xFC28,
          6 + (chunksFrom (4 + 8 - min 59 (4 + 8))).getD i 0⟩) ∧
     obsOf (callAt blobOne (chipset_init freshS) buf0 (0 + 1)) = ⟨.validCommand, 0xFC32, 0⟩ ∧
     (∀ j, (callAt blobOne (chipset_init freshS) buf0 (0 + 2 + j)).result = .done) ∧
     min 59 (4 + 8) + (chunksFrom (4 + 8 - min 59 (4 + 8))).sum = 4 + 8) :=
  have hK : 0 = (chunksFrom (4 + 8 - min 59 (4 + 8))).length := by
    rw [show (4 + 8 - min 59 (4 + 8)) = 0 from rfl, chunksFrom]
    simp
  ⟨⟨by decide, by decide, by decide, by decide, hK⟩,
   C2_single_container_run blobOne freshS buf0 4 0 (by decide) (by decide) (by decide)
     (by decide) hK⟩

/-- C6 (counterexample): on a blob whose size field overruns the blob (tag
intact, total size 100 in an 8-byte blob) the very first call moves the
cursor to 59, past the blob length 8 — so over arbitrary blobs the cursor
can exceed the blob length. -/
theorem C6_counterexample :
    (runFrom blobOverrun freshS buf0 1).1.container_blob_offset = 59 ∧
    blobOverrun.length = 8 ∧
    ¬(runFrom blobOverrun freshS buf0 1).1.container_blob_offset ≤ blobOverrun.length := by
  refine ⟨by decide, by decide, by decide⟩

/-- C6 (amended): over a well-formed blob — every container header intact
and every container span inside the blob — the cursor of a fresh run never
decreases from one call to the next and never exceeds the blob length. -/
theorem C6_cursor_monotone_bounded (blob : List Nat) (s : Session) (buf : Buf)
    (hwf : wfFrom blob 0 = true)
    (hL : blob.length < 2 ^ 32) :
    ∀ k,
      (runFrom blob (chipset_init s) buf k).1.container_blob_offset ≤
        (runFrom blob (chipset_init s) buf (k + 1)).1.container_blob_offset ∧
      (runFrom blob (chipset_init s) buf k).1.container_blob_offset ≤ blob.length := by
  have hinv0 : SessionInv blob (chipset_init s) := by
    refine ⟨by simp [chipset_init], fun _ => hwf, fun h => ?_⟩
    simp [chipset_init] at h
  intro k
  have hinvk := sessionInv_run blob (chipset_init s) buf hL hinv0 k
  constructor
  · rw [runFrom_succ_back]
    exact (sessionInv_step blob _ _ hL hinvk).2
  · exact hinvk.1

theorem wfTwo70 : wfFrom blobTwo 70 = true := by
  rw [wfFrom]
  rw [if_neg (by decide), dif_pos (by decide), dif_pos (by decide)]
  rw [wfFrom]
  rw [if_pos (by decide)]
  decide

theorem wfTwo : wfFrom blobTwo 0 = true := by
  rw [wfFrom]
  rw [if_neg (by decide), dif_pos (by decide), dif_pos (by decide)]
  rw [show (0 + little_endian_read_32 blobTwo 4 : Nat) = 70 from by decide, wfTwo70]
  decide

/-- C6 witness: the monotone-bounded-cursor theorem at the two-container
blob. -/
theorem C6_witness :
    (wfFrom blobTwo 0 = true ∧ blobTwo.length < 2 ^ 32) ∧
    (∀ k,
      (runFrom blobTwo (chipset_init freshS) buf0 k).1.container_blob_offset ≤
        (runFrom blobTwo (chipset_init freshS) buf0 (k + 1)).1.container_blob_offset ∧
      (runFrom blobTwo (chipset_init freshS) buf0 k).1.container_blob_offset ≤
        blobTwo.length) :=
  ⟨⟨wfTwo, by decide⟩,
   C6_cursor_monotone_bounded blobTwo freshS buf0 wfTwo (by decide)⟩

/-- C4 (amended): over a well-formed blob, for every container, the 2-byte
little-endian sequence fields of its Continue frames are `(1+i) mod 2^16`
for the `i`-th Continue frame — the contiguous sequence 1, 2, 3, … with no
gaps or repeats whenever the container needs at most 65535 Continue frames
(the counter is 16-bit) — and the count restarts at 1 for each container. -/
theorem C4_sequence_numbers (blob : List Nat) (s : Session) (buf : Buf)
    (hwf : wfFrom blob 0 = true)
    (hL : blob.length < 2 ^ 32) :
    ∀ c ∈ containerStarts blob 0,
      ∃ base : Nat,
        (runFrom blob (chipset_init s) buf base).1.container_blob_offset = c ∧
        (runFrom blob (chipset_init s) buf base).1.upload_state = .idle ∧
        ∀ i, i < (chunksFrom (little_endian_read_32 blob (c + 4) -
            min 59 (little_endian_read_32 blob (c + 4)))).length →
          obsOf (callAt blob (chipset_init s) buf (base + (1 + i))) =
            ⟨.validCommand, 0xFC28,
             6 + (chunksFrom (little_endian_read_32 blob (c + 4) -
               min 59 (little_endian_read_32 blob (c + 4)))).getD i 0⟩ ∧
          seqFieldOf (callAt blob (chipset_init s) buf (base + (1 + i))) =
            (1 + i) % 2 ^ 16 ∧
          ((chunksFrom (little_endian_read_32 blob (c + 4) -
              min 59 (little_endian_read_32 blob (c + 4)))).length ≤ 65535 →
            seqFieldOf (callAt blob (chipset_init s) buf (base + (1 + i))) = 1 + i) := by
  intro c hc
  have hst0 : (chipset_init s).upload_state = .idle := rfl
  have hoff0 : (chipset_init s).container_blob_offset = 0 := rfl
  obtain ⟨base, e, q, hbase⟩ :=
    containers_run blob 0 (chipset_init s) buf hst0 hoff0 hwf hL c hc
  obtain ⟨hwfc, hcL⟩ := mem_containerStarts_wf blob 0 hwf c hc
  obtain ⟨htagc, h8c, hlec, -⟩ := wfFrom_unfold blob c hcL hwfc
  obtain ⟨-, -, hobsi, -⟩ := container_run blob
    (runFrom blob (chipset_init s) buf base).1 (runFrom blob (chipset_init s) buf base).2
    (little_endian_read_32 blob (c + 4)) (min 59 (little_endian_read_32 blob (c + 4)))
    (by rw [hbase]) (by rw [hbase]; exact htagc) (by rw [hbase]) h8c
    (by rw [hbase]; exact hlec) hL rfl
  refine ⟨base, by rw [hbase], by rw [hbase], ?_⟩
  intro i hi
  have hcall : callAt blob (chipset_init s) buf (base + (1 + i)) =
      callAt blob (runFrom blob (chipset_init s) buf base).1
        (runFrom blob (chipset_init s) buf base).2 (1 + i) :=
    callAt_add blob (chipset_init s) buf base (1 + i)
  obtain ⟨ho, hs⟩ := hobsi i hi
  refine ⟨by rw [hcall]; exact ho, by rw [hcall]; exact hs, ?_⟩
  intro hK
  rw [hcall, hs]
  exact Nat.mod_eq_of_lt (by omega)

/-- C4 witness: the sequence-number theorem at the two-container blob. -/
theorem C4_witness :
    (wfFrom blobTwo 0 = true ∧ blobTwo.length < 2 ^ 32) ∧
    (∀ c ∈ containerStarts blobTwo 0,
      ∃ base : Nat,
        (runFrom blobTwo (chipset_init freshS) buf0 base).1.container_blob_offset = c ∧
        (runFrom blobTwo (chipset_init freshS) buf0 base).1.upload_state = .idle ∧
        ∀ i, i < (chunksFrom (little_endian_read_32 blobTwo (c + 4) -
            min 59 (little_endian_read_32 blobTwo (c + 4)))).length →
          obsOf (callAt blobTwo (chipset_init freshS) buf0 (base + (1 + i))) =
            ⟨.validCommand, 0xFC28,
             6 + (chunksFrom (little_endian_read_32 blobTwo (c + 4) -
               min 59 (little_endian_read_32 blobTwo (c + 4)))).getD i 0⟩ ∧
          seqFieldOf (callAt blobTwo (chipset_init freshS) buf0 (base + (1 + i))) =
            (1 + i) % 2 ^ 16 ∧
          ((chunksFrom (little_endian_read_32 blobTwo (c + 4) -
              min 59 (little_endian_read_32 blobTwo (c + 4)))).length ≤ 65535 →
            seqFieldOf (callAt blobTwo (chipset_init freshS) buf0 (base + (1 + i))) =
              1 + i)) :=
  ⟨⟨wfTwo, by decide⟩, C4_sequence_numbers blobTwo freshS buf0 wfTwo (by decide)⟩

theorem blobHuge_len : blobHuge.length = 3801147 := by
  unfold blobHuge
  rw [List.length_append, List.length_replicate]
  norm_num

theorem blobHuge_byte (j : Nat) (hj : j < 8) :
    blobHuge.getD j 0 = [0x33, 0x39, 0x6d, 0x65, 0x3B, 0x00, 0x3A, 0x00].getD j 0 := by
  unfold blobHuge
  rw [List.getD_append _ _ _ _ (by simp; omega)]

theorem blobHuge_tag : little_endian_read_32 blobHuge 0 = 0x656d3933 := by
  unfold little_endian_read_32 blobByte
  rw [blobHuge_byte 0 (by norm_num), blobHuge_byte (0 + 1) (by norm_num),
    blobHuge_byte (0 + 2) (by norm_num), blobHuge_byte (0 + 3) (by norm_num)]
  decide

theorem blobHuge_size : little_endian_read_32 blobHuge 4 = 3801147 := by
  unfold little_endian_read_32 blobByte
  rw [blobHuge_byte 4 (by norm_num), blobHuge_byte (4 + 1) (by norm_num),
    blobHuge_byte (4 + 2) (by norm_num), blobHuge_byte (4 + 3) (by norm_num)]
  decide

/-- C4 (counterexample): the container of total size 3801147 needs 65536
Continue frames; its 65536-th Continue frame (call number 65536 of a fresh
run) is a Continue frame whose 2-byte sequence field reads 0, not 65536 —
the 16-bit counter has wrapped, so the sequence fields do not form the
contiguous sequence 1, 2, 3, …. -/
theorem C4_counterexample :
    obsOf (callAt blobHuge freshS buf0 65536) = ⟨.validCommand, 0xFC28, 6 + 58⟩ ∧
    seqFieldOf (callAt blobHuge freshS buf0 65536) = 0 ∧
    (0 : Nat) ≠ 65536 := by
  have hT : little_endian_read_32 blobHuge (freshS.container_blob_offset + 4) = 3801147 :=
    blobHuge_size
  have hlen := blobHuge_len
  obtain ⟨hsess0, -, -, -, -, -⟩ := good_start_step blobHuge freshS buf0 rfl
    (by rw [hlen]; show (0 : Nat) < 3801147; norm_num) blobHuge_tag
    (by rw [hT]; show (0 : Nat) + 3801147 < 2 ^ 32; norm_num)
  rw [hT] at hsess0
  have hsess0' : (chipset_next_command blobHuge freshS buf0).session =
      ⟨59, 3801147, 1, false, .active⟩ := by
    rw [hsess0]
    norm_num [freshS]
  have hiter : (runFrom blobHuge (chipset_next_command blobHuge freshS buf0).session
      (chipset_next_command blobHuge freshS buf0).buf 65535).1 =
      ⟨3801089, 3801147, 0, false, .active⟩ := by
    rw [hsess0']
    rw [active_steps_full blobHuge 65535 ⟨59, 3801147, 1, false, .active⟩
      (chipset_next_command blobHuge freshS buf0).buf rfl (by rw [hlen])
      (by rw [hlen]; norm_num) (by norm_num) (by norm_num)]
    simp only [Session.mk.injEq]
    norm_num
  obtain ⟨-, -, hobs2, hseq2, -, -⟩ := good_cont_step blobHuge
    (⟨3801089, 3801147, 0, false, .active⟩ : Session)
    (runFrom blobHuge (chipset_next_command blobHuge freshS buf0).session
      (chipset_next_command blobHuge freshS buf0).buf 65535).2
    rfl (by rw [hlen]; norm_num) (by norm_num) (by norm_num)
  refine ⟨?_, ?_, by omega⟩
  · rw [show (65536 : Nat) = 65535 + 1 from rfl, callAt_succ, callAt_eq, hiter, hobs2]
    norm_num
  · rw [show (65536 : Nat) = 65535 + 1 from rfl, callAt_succ, callAt_eq, hiter, hseq2]
    simp
